import Mathlib

/-!
Shallow embedding of the chunk streaming and visibility subsystem of the
hematite voxel renderer (src/chunk.rs, src/app.rs), together with proofs of
the specified properties: the spatial index of loaded chunk columns, the
neighborhood stitcher, the load scheduler, the pending work queue and the
frame culler.

Machine integers are modelled as `Int` with explicit two-complement wrapping
where Rust arithmetic can overflow (`i32`, `usize`); `f32` world coordinates
are modelled as `Rat`.
-/

namespace Hematite

/-! ## Machine integer helpers -/

/-- Wrap an integer into the `i32` range, two-complement style. -/
def wrap32 (x : Int) : Int := (x + 2 ^ 31) % 2 ^ 32 - 2 ^ 31

/-- `i32` subtraction (`a - b` in Rust, release-mode wrapping semantics). -/
def sub32 (a b : Int) : Int := wrap32 (a - b)

/-- `i32` multiplication. -/
def mul32 (a b : Int) : Int := wrap32 (a * b)

/-- `i32` addition. -/
def add32 (a b : Int) : Int := wrap32 (a + b)

/-- Cast of an `i32`-valued index to `usize` (`y as usize` in Rust):
two-complement reinterpretation into the unsigned 64-bit range. -/
def usizeCast (x : Int) : Nat := (x % 2 ^ 64).toNat

/-- Saturating conversion to `i32`: an `as` cast from a float to an integer
in Rust clamps values outside the target range to `i32::MIN` or
`i32::MAX`. -/
def i32sat (x : Int) : Int :=
  if x < -(2 ^ 31) then -(2 ^ 31)
  else if 2 ^ 31 - 1 < x then 2 ^ 31 - 1
  else x

/-- The mathematical chunk coordinate of a world coordinate: the floor of
the position divided by 16, before any machine cast. -/
def floorChunk (q : Rat) : Int := ⌊q / 16⌋

/-- Conversion `(x / 16.0).floor() as i32` applied to a world coordinate
(app.rs lines 98, 206, 346): the floor of the position divided by 16,
clamped into the `i32` range by the saturating cast. -/
def chunkCoordQ (q : Rat) : Int := i32sat (floorChunk q)

/-! ## Data model (src/chunk.rs) -/

/-- A 16-bit opaque block state id (struct `BlockState`). -/
structure BlockState where
  value : Nat
deriving DecidableEq

/-- The reserved empty ("no block") state (`EMPTY_BLOCK`). -/
def EMPTY_BLOCK : BlockState := ⟨0⟩

/-- One byte of light data (struct `LightLevel`). -/
structure LightLevel where
  value : Nat
deriving DecidableEq

/-- Biome id byte (struct `BiomeId`). -/
structure BiomeId where
  value : Nat
deriving DecidableEq

/-- `SIZE`: the chunk edge length. -/
def SIZE : Nat := 16

/-- A chunk of SIZE x SIZE x SIZE blocks, in YZX order (struct `Chunk`). -/
structure Chunk where
  blocks : Fin SIZE → Fin SIZE → Fin SIZE → BlockState
  light_levels : Fin SIZE → Fin SIZE → Fin SIZE → LightLevel

/-- `EMPTY_CHUNK`: all blocks empty, all light levels `0xf0`. -/
def EMPTY_CHUNK : Chunk :=
  { blocks := fun _ _ _ => EMPTY_BLOCK
    light_levels := fun _ _ _ => ⟨0xf0⟩ }

/-- A GPU vertex-buffer handle is opaque to the core; we model the content of
one `RefCell<Option<Buffer>>` mesh slot as an optional handle id. -/
abbrev MeshSlot : Type := Option Nat

/-- Struct `ChunkColumn`: a vector of chunk slices, a fixed array of `SIZE`
mesh-slot cells and a 16 x 16 biome grid. -/
structure ChunkColumn where
  chunks : List Chunk
  buffers : { l : List MeshSlot // l.length = SIZE }
  biomes : Fin SIZE → Fin SIZE → BiomeId

/-- Struct `ChunkBuffer` (the pending-queue entry): target slice coordinates
`[x, y, z]`, the identity of the mesh slot it will fill (column key and slice
index), the stitched 3 x 3 x 3 chunk neighborhood (indexed `[dy][dz][dx]`,
index 0 standing for delta -1) and the 3 x 3 optional biome grids
(indexed `[dz][dx]`). -/
structure ChunkBuffer where
  coords : Int × Int × Int
  buffer : (Int × Int) × Nat
  chunks : Fin 3 → Fin 3 → Fin 3 → Chunk
  biomes : Fin 3 → Fin 3 → Option (Fin SIZE → Fin SIZE → BiomeId)

/-! ## SpatialChunkIndex: the `chunk_columns` HashMap

`HashMap<(i32, i32), ChunkColumn>` is modelled as an association list whose
`insert` replaces any previous binding of the key (HashMap::insert
semantics); iteration order of the model list stands in for the unspecified
HashMap iteration order. -/

/-- The spatial index of loaded chunk columns. -/
abbrev Index : Type := List ((Int × Int) × ChunkColumn)

/-- `ChunkManager::add_chunk_column`: `self.chunk_columns.insert((x, z), c)`. -/
def addChunkColumn (m : Index) (x z : Int) (c : ChunkColumn) : Index :=
  ((x, z), c) :: m.filter (fun p => p.1 ≠ (x, z))

/-- `self.chunk_columns.get(&(x, z))`. -/
def lookupColumn (m : Index) (k : Int × Int) : Option ChunkColumn :=
  (m.find? (fun p => p.1 = k)).map (fun p => p.2)

/-- The keys bound in the index. -/
def indexKeys (m : Index) : List (Int × Int) := m.map (fun p => p.1)

/-! ## NeighborhoodStitcher: `ChunkManager::each_chunk_and_neighbors` -/

/-- Resolution of one vertical chunk reference:
`cx.and_then(|c| c.chunks[..].get(y as usize)).unwrap_or(EMPTY_CHUNK)`
(chunk.rs lines 176-178), where `y` is the signed slice index `y + dy`. -/
def resolveChunk (col : Option ChunkColumn) (j : Int) : Chunk :=
  match col with
  | none => EMPTY_CHUNK
  | some c =>
    match c.chunks.get? (usizeCast j) with
    | some ch => ch
    | none => EMPTY_CHUNK

/-- The stitched 3 x 3 x 3 chunk neighborhood of slice `y` of column `(x, z)`
(chunk.rs lines 165-181): index order `[dy][dz][dx]`, position 0 standing
for delta -1, built over the current index contents. The slice index is
`y as i32 + dy` (a truncating `usize` to `i32` cast followed by an `i32`
addition), later cast back to `usize` by `resolveChunk`. -/
def stitchChunks (m : Index) (x z : Int) (y : Nat) :
    Fin 3 → Fin 3 → Fin 3 → Chunk :=
  fun yi zi xi =>
    resolveChunk (lookupColumn m (x + ((xi : Int) - 1), z + ((zi : Int) - 1)))
      (add32 (wrap32 (y : Int)) ((yi : Int) - 1))

/-- The 3 x 3 optional biome grids of the neighborhood
(`columns.map(|cz| cz.map(|cx| cx.map(|c| &c.biomes)))`, chunk.rs line 183). -/
def stitchBiomes (m : Index) (x z : Int) :
    Fin 3 → Fin 3 → Option (Fin SIZE → Fin SIZE → BiomeId) :=
  fun zi xi =>
    (lookupColumn m (x + ((xi : Int) - 1), z + ((zi : Int) - 1))).map
      (fun c => c.biomes)

/-- Junk column used to totalize `columns[1][1].unwrap()`; the lookup of an
iterated key never fails, so this default is never reached. -/
def junkColumn : ChunkColumn :=
  { chunks := []
    buffers := ⟨List.replicate SIZE none, by simp⟩
    biomes := fun _ _ => ⟨0⟩ }

/-- `ChunkManager::each_chunk_and_neighbors` (chunk.rs lines 158-186) as the
list of callback arguments, in iteration order: for every key `(x, z)` of the
index and every slice `y` below the central column slice count, the coords
`[x, y, z]`, the identity of `central.buffers[y]`, the stitched chunk
neighborhood and the biome grids. -/
def eachChunkAndNeighbors (m : Index) : List ChunkBuffer :=
  m.flatMap (fun kc =>
    let x := kc.1.1
    let z := kc.1.2
    let central := (lookupColumn m (x, z)).getD junkColumn
    (List.range central.chunks.length).map (fun (y : Nat) =>
      { coords := (x, (y : Int), z)
        buffer := ((x, z), y)
        chunks := stitchChunks m x z y
        biomes := stitchBiomes m x z }))

/-- One slice as seen by `ChunkManager::each_chunk` (chunk.rs lines 188-199):
its coordinates and the content of its mesh slot. -/
structure Slice where
  coords : Int × Int × Int
  buffer : MeshSlot

/-- `ChunkManager::each_chunk`: every loaded slice, pairing `c.chunks` with
`c.buffers` by position (`zip`), in index iteration order. -/
def eachChunk (m : Index) : List Slice :=
  m.flatMap (fun kc =>
    ((kc.2.chunks.zip kc.2.buffers.val).enum).map (fun p =>
      { coords := (kc.1.1, (p.1 : Int), kc.1.2), buffer := p.2.2 }))

/-! ## LoadScheduler: `App::load_chunks` (app.rs lines 344-373)

`RegionStore` (src/minecraft/region.rs) is not part of the sources; the
region is a parameter yielding an optional column per local coordinate. -/

/-- Mutable state touched by the scheduler: the spatial index and the
pending-chunks vector. -/
structure AppState where
  index : Index
  pending : List ChunkBuffer

/-- `max(0, (x & 0x1f) - 8) as u8` (app.rs line 350): the base of the load
window on one axis. `x & 0x1f` on `i32` is `x.emod 32`. -/
def cBase (x : Int) : Nat := (max 0 (x % 32 - 8)).toNat

/-- `x >> 5` on `i32` (arithmetic shift): floor division by 32
(app.rs line 349). -/
def regionCoord (x : Int) : Int := Int.fdiv x 32

/-- The sequence of `(cx, cz)` argument pairs that the load window loop
passes to `region.get_chunk_column` (app.rs lines 359-361): `cz` outer and
`cx` inner, each ranging over 16 values from the window base. -/
def regionCallsOf (pcx pcz : Int) : List (Nat × Nat) :=
  (List.range 16).flatMap (fun dz =>
    (List.range 16).map (fun dx => (cBase pcx + dx, cBase pcz + dz)))

/-- `App::load_chunks`: computes the player chunk coordinates, pushes one
pending entry per loaded slice of the *current* index contents via
`each_chunk_and_neighbors`, and then runs the load window loop, inserting
every column the region yields at its absolute coordinates. The two steps
occur in this order in the source (app.rs lines 353-372). -/
def loadChunksAt (region : Nat → Nat → Option ChunkColumn)
    (pcx pcz : Int) (st : AppState) : AppState :=
  { pending := st.pending ++ eachChunkAndNeighbors st.index
    index := (regionCallsOf pcx pcz).foldl (fun m cc =>
      match region cc.1 cc.2 with
      | some column =>
        addChunkColumn m ((cc.1 : Int) + regionCoord pcx * 32)
          ((cc.2 : Int) + regionCoord pcz * 32) column
      | none => m) st.index }

/-- `App::load_chunks` applied to a player world position: the first two
lines compute the player chunk coordinates, the rest is `loadChunksAt`. -/
def loadChunks (region : Nat → Nat → Option ChunkColumn)
    (px pz : Rat) (st : AppState) : AppState :=
  loadChunksAt region (chunkCoordQ px) (chunkCoordQ pz) st

/-! ## PendingWorkQueue: the pop-nearest step of `App::handle_event`
(`Event::Update`, app.rs lines 202-226; `ChunkManager::get_pending` in
chunk.rs lines 127-156 is the duplicate draft of the same fold). -/

/-- The squared distance accumulated by the fold, in `i32` arithmetic:
`[cc[0]-pp[0], cc[1]-pp[1], cc[2]-pp[2]].map(|x| x*x)` summed left to
right (app.rs lines 210-212). -/
def machineDist (cc pp : Int × Int × Int) : Int :=
  add32 (add32 (mul32 (sub32 cc.1 pp.1) (sub32 cc.1 pp.1))
               (mul32 (sub32 cc.2.1 pp.2.1) (sub32 cc.2.1 pp.2.1)))
        (mul32 (sub32 cc.2.2 pp.2.2) (sub32 cc.2.2 pp.2.2))

/-- The exact (unbounded) squared Euclidean distance between two integer
coordinate triples, as the specification states it. -/
def sqDist (cc pp : Int × Int × Int) : Int :=
  (cc.1 - pp.1) ^ 2 + (cc.2.1 - pp.2.1) ^ 2 + (cc.2.2 - pp.2.2) ^ 2

/-- The enumerated fold of the pop-nearest scan, index threading made
explicit: state `(best_i, best_dist)`, strict improvement only. -/
def selGo (d : ChunkBuffer → Int) :
    List ChunkBuffer → Nat → Option Nat × Int → Option Nat × Int
  | [], _, acc => acc
  | e :: es, n, (bi, bd) =>
    if d e < bd then selGo d es (n + 1) (some n, d e)
    else selGo d es (n + 1) (bi, bd)

/-- The `fold` of app.rs lines 207-219: scan the enumerated queue starting
from `(None, i32::max_value())` and keep the first strict minimizer of the
`i32` squared distance to `pp`. -/
def selectClosest (pp : Int × Int × Int) (q : List ChunkBuffer) : Option Nat :=
  (q.enum.foldl (fun acc p =>
      if machineDist p.2.coords pp < acc.2 then (some p.1, machineDist p.2.coords pp)
      else acc)
    (none, 2 ^ 31 - 1)).1

/-- `Vec::swap_remove(i)`: overwrite position `i` with the last element and
drop the last element. Defined (as the identity) on the empty list to stay
total; callers only reach it with `i < l.length`. -/
def swapRemove (l : List α) (i : Nat) : List α :=
  match l.getLast? with
  | none => l
  | some a => (l.set i a).dropLast

/-- The pop-nearest step (app.rs lines 206-226): run the scan; on a found
index, `match len { 0 => None, _ => Some(swap_remove(i)) }`. Returns the
popped entry (if any) and the queue afterwards. The inner `none` arm of the
`get?` match is unreachable (the scan only yields indices below the
length). -/
def popNearest (pp : Int × Int × Int) (q : List ChunkBuffer) :
    Option ChunkBuffer × List ChunkBuffer :=
  match selectClosest pp q with
  | none => (none, q)
  | some i =>
    match q.length with
    | 0 => (none, q)
    | _ + 1 =>
      match q.get? i with
      | some e => (some e, swapRemove q i)
      | none => (none, q)

/-! ## FrameCuller: the per-slice work of `App::render` (app.rs lines 284-323)

`f32` values are modelled as rationals. A `vecmath` `Matrix4` is an array of
four columns; `col_mat4_transform(m, v)` produces, at row `i`, the sum of
`m[j][i] * v[j]`. -/

/-- A four component vector of rationals. -/
def Vec4 : Type := Fin 4 → Rat

/-- A 4 x 4 matrix as its four columns (`vecmath::Matrix4`). -/
def Mat4 : Type := Fin 4 → Vec4

/-- `col_mat4_transform`. -/
def colMat4Transform (m : Mat4) (v : Vec4) : Vec4 :=
  fun i => m 0 i * v 0 + m 1 i * v 1 + m 2 i * v 2 + m 3 i * v 3

/-- The eight corner offsets `[dx, dy, dz]`, in the loop nesting order of
app.rs lines 292-294 (`dx` outer, `dy` middle, `dz` inner). -/
def cornerDeltas : List (Rat × Rat × Rat) :=
  [(0, 0, 0), (0, 0, 16), (0, 16, 0), (0, 16, 16),
   (16, 0, 0), (16, 0, 16), (16, 16, 0), (16, 16, 16)]

/-- One corner of the world bounding box of the slice at chunk coordinates
`cc`: `vec3_add(xyz, [dx, dy, dz])` with `xyz = [cx, cy, cz] * 16.0`. -/
def cornerWorld (cc : Int × Int × Int) (d : Rat × Rat × Rat) : Vec4 :=
  fun i =>
    match i with
    | 0 => (cc.1 : Rat) * 16 + d.1
    | 1 => (cc.2.1 : Rat) * 16 + d.2.1
    | 2 => (cc.2.2 : Rat) * 16 + d.2.2
    | 3 => 1

/-- The perspective-divided projection of one corner (app.rs lines 297-300):
view transform, projection transform, then `xyz * (1 / w)`. Division by a
zero `w` is the one place where the rational model and `f32` semantics part
ways (the known straddling-the-w=0-plane simplification). -/
def ndcCorner (view proj : Mat4) (cc : Int × Int × Int) (d : Rat × Rat × Rat)
    (i : Fin 3) : Rat :=
  let xyzw := colMat4Transform view (cornerWorld cc d)
  let v := colMat4Transform proj xyzw
  (match i with | 0 => v 0 | 1 => v 1 | 2 => v 2) * (1 / v 3)

/-- Fold of `f32::min` over a value list; the `INFINITY` seed of app.rs line
289 makes the first corner the first real accumulator value. -/
def minOver (l : List Rat) : Rat :=
  match l with
  | [] => 0
  | v :: vs => vs.foldl min v

/-- Fold of `f32::max` over a value list (seed `-INFINITY`). -/
def maxOver (l : List Rat) : Rat :=
  match l with
  | [] => 0
  | v :: vs => vs.foldl max v

/-- `bb_min[i]` after the corner loop. -/
def bbMin (view proj : Mat4) (cc : Int × Int × Int) (i : Fin 3) : Rat :=
  minOver (cornerDeltas.map (fun d => ndcCorner view proj cc d i))

/-- `bb_max[i]` after the corner loop. -/
def bbMax (view proj : Mat4) (cc : Int × Int × Int) (i : Fin 3) : Rat :=
  maxOver (cornerDeltas.map (fun d => ndcCorner view proj cc d i))

/-- `f32::signum` for non-NaN input: 1 for nonnegative (including zero),
-1 for negative. -/
def rsign (q : Rat) : Int := if 0 ≤ q then 1 else -1

/-- One entry of `cull_bits` (app.rs lines 307-311):
`min.signum() == max.signum() && min.abs().min(max.abs()) >= 1.0`. -/
def cullBit (view proj : Mat4) (cc : Int × Int × Int) (i : Fin 3) : Prop :=
  rsign (bbMin view proj cc i) = rsign (bbMax view proj cc i) ∧
    1 ≤ min |bbMin view proj cc i| |bbMax view proj cc i|

instance (view proj : Mat4) (cc : Int × Int × Int) (i : Fin 3) :
    Decidable (cullBit view proj cc i) := by
  unfold cullBit; infer_instance

/-- `cull_bits.iter().any(|&cull| cull)`: the slice is culled when some axis
bit is set (app.rs line 313). -/
def culled (view proj : Mat4) (cc : Int × Int × Int) : Prop :=
  ∃ i : Fin 3, cullBit view proj cc i

instance (view proj : Mat4) (cc : Int × Int × Int) :
    Decidable (culled view proj cc) := by
  unfold culled; infer_instance

/-- The needs-sort test of app.rs lines 317-318:
`bb_min[0] < 0.0 && bb_max[0] > 0.0 || bb_min[1] < 0.0 && bb_max[1] > 0.0`. -/
def straddles (view proj : Mat4) (cc : Int × Int × Int) : Prop :=
  bbMin view proj cc 0 < 0 ∧ 0 < bbMax view proj cc 0 ∨
    bbMin view proj cc 1 < 0 ∧ 0 < bbMax view proj cc 1

instance (view proj : Mat4) (cc : Int × Int × Int) :
    Decidable (straddles view proj cc) := by
  unfold straddles; infer_instance

/-- Accumulator of the render loop: the buffers submitted so far (in
submission order) and the three telemetry counters. -/
structure RenderAcc where
  submitted : List Nat
  numChunks : Nat
  numSorted : Nat
  numTotal : Nat

/-- The body of the `each_chunk` closure in `App::render` (app.rs lines
284-323): skip slices without a buffer, count the rest, cull, submit the
survivors in arrival order and bump the needs-sort tally on a straddling
survivor. -/
def renderStep (view proj : Mat4) (acc : RenderAcc) (s : Slice) : RenderAcc :=
  match s.buffer with
  | none => acc
  | some b =>
    let acc := { acc with numTotal := acc.numTotal + 1 }
    if culled view proj s.coords then acc
    else
      { acc with
        submitted := acc.submitted ++ [b]
        numChunks := acc.numChunks + 1
        numSorted :=
          acc.numSorted + (if straddles view proj s.coords then 1 else 0) }

/-- The whole per-frame pass over the loaded slices. -/
def renderPass (view proj : Mat4) (l : List Slice) : RenderAcc :=
  l.foldl (renderStep view proj) ⟨[], 0, 0, 0⟩

/-! ## Spec-modelled region output -/

/-- Modelled from the spec: the `RegionStore` implementation
(src/minecraft/region.rs) is not among the sources; section 3 of the spec
states that a `ChunkColumn` carries "an ordered sequence of Chunks" and "a
same-length parallel sequence of optional GPU-mesh-handle slots", and the
`ChunkColumn` type fixes the slot count at `SIZE`. A region is well formed
when every column it yields satisfies this. -/
def RegionWellFormed (region : Nat → Nat → Option ChunkColumn) : Prop :=
  ∀ x z c, region x z = some c → c.chunks.length = c.buffers.val.length

/-- The per-column invariant of spec section 3: slice count equals mesh-slot
count. -/
def columnWF (c : ChunkColumn) : Prop :=
  c.chunks.length = c.buffers.val.length

/-- The index-wide invariant: every bound column is well formed and no key
is bound twice. -/
def indexWF (m : Index) : Prop :=
  (∀ p ∈ m, columnWF p.2) ∧ (indexKeys m).Nodup

/-! ## Derived values and concrete data used by the theorems below -/

/-- The player chunk coordinate triple
`camera.position.map(|x| (x / 16.0).floor() as i32)` (app.rs line 206). -/
def playerChunk (p : Rat × Rat × Rat) : Int × Int × Int :=
  (chunkCoordQ p.1, chunkCoordQ p.2.1, chunkCoordQ p.2.2)

/-- The unclamped player chunk coordinate triple (the specification's
"floor of world position divided by 16" per axis), for comparison with the
machine value that `playerChunk` computes. -/
def floorChunkCoord (p : Rat × Rat × Rat) : Int × Int × Int :=
  (floorChunk p.1, floorChunk p.2.1, floorChunk p.2.2)

/-- The specification-side description of what the render loop submits for
one slice: its buffer when one exists and the slice survives culling. -/
def submitPick (view proj : Mat4) (s : Slice) : Option Nat :=
  match s.buffer with
  | none => none
  | some b => if culled view proj s.coords then none else some b

/-- The specification-side needs-sort test: a surviving slice whose
projected X or Y range straddles zero. -/
def needsSort (view proj : Mat4) (s : Slice) : Bool :=
  s.buffer.isSome && !decide (culled view proj s.coords) &&
    decide (straddles view proj s.coords)

/-- A pending entry with given coordinates and inert payload, for concrete
instantiations. -/
def mkEntry (cc : Int × Int × Int) : ChunkBuffer :=
  { coords := cc
    buffer := ((0, 0), 0)
    chunks := fun _ _ _ => EMPTY_CHUNK
    biomes := fun _ _ => none }

/-- A chunk distinguishable from `EMPTY_CHUNK`. -/
def chunkMarked : Chunk :=
  { blocks := fun _ _ _ => ⟨1⟩
    light_levels := fun _ _ _ => ⟨0⟩ }

/-- A one-slice column (as a region file with a single populated section
would yield). -/
def sampleColumn : ChunkColumn :=
  { chunks := [chunkMarked]
    buffers := ⟨List.replicate SIZE none, by simp⟩
    biomes := fun _ _ => ⟨7⟩ }

/-- Two adjacent loaded columns, at keys `(0, 0)` and `(1, 0)`. -/
def sampleIndex : Index := [((0, 0), sampleColumn), ((1, 0), sampleColumn)]

/-- A region yielding the one-slice column everywhere. -/
def sampleRegion : Nat → Nat → Option ChunkColumn := fun _ _ => some sampleColumn

/-- A column with sixteen slices: slice count equals mesh-slot count. -/
def fullColumn : ChunkColumn :=
  { chunks := List.replicate SIZE chunkMarked
    buffers := ⟨List.replicate SIZE none, by simp⟩
    biomes := fun _ _ => ⟨7⟩ }

/-- A well-formed region yielding the sixteen-slice column everywhere. -/
def fullRegion : Nat → Nat → Option ChunkColumn := fun _ _ => some fullColumn

/-- Column vector constructor. -/
def mkCol (a b c d : Rat) : Vec4 :=
  fun i => match i with | 0 => a | 1 => b | 2 => c | 3 => d

/-- Matrix from four columns. -/
def mkMat (c0 c1 c2 c3 : Vec4) : Mat4 :=
  fun j => match j with | 0 => c0 | 1 => c1 | 2 => c2 | 3 => c3

/-- A view matrix translating the world by `(-8, -8, -8)`: the camera sits
at world position `(8, 8, 8)` looking along the negative z axis. -/
def viewB : Mat4 :=
  mkMat (mkCol 1 0 0 0) (mkCol 0 1 0 0) (mkCol 0 0 1 0) (mkCol (-8) (-8) (-8) 1)

/-- A standard perspective projection (near 1, far 100):
`z -> -(101/99) z - 200/99`, `w -> -z`. -/
def projB : Mat4 :=
  mkMat (mkCol 1 0 0 0) (mkCol 0 1 0 0) (mkCol 0 0 (-(101/99)) (-1))
    (mkCol 0 0 (-(200/99)) 0)

/-! ## Lemmas on the pop-nearest scan -/

theorem foldl_enumFrom_eq_selGo (d : ChunkBuffer → Int) (l : List ChunkBuffer) :
    ∀ (n : Nat) (bi : Option Nat) (bd : Int),
      ((List.enumFrom n l).foldl
        (fun acc p => if d p.2 < acc.2 then (some p.1, d p.2) else acc)
        (bi, bd)) = selGo d l n (bi, bd) := by
  induction l with
  | nil => intro n bi bd; rfl
  | cons e es ih =>
    intro n bi bd
    show ((n, e) :: List.enumFrom (n + 1) es).foldl _ _ = _
    rw [List.foldl_cons, selGo]
    by_cases h : d e < bd
    · simp only [h, if_pos]
      exact ih (n + 1) (some n) (d e)
    · simp only [h, if_neg, if_false]
      exact ih (n + 1) bi bd

theorem selectClosest_eq_selGo (pp : Int × Int × Int) (q : List ChunkBuffer) :
    selectClosest pp q =
      (selGo (fun e => machineDist e.coords pp) q 0 (none, 2 ^ 31 - 1)).1 := by
  unfold selectClosest
  rw [show q.enum = List.enumFrom 0 q from rfl,
    foldl_enumFrom_eq_selGo (fun e => machineDist e.coords pp) q 0 none (2 ^ 31 - 1)]

/-- Full characterization of the scan: either nothing beat the incoming
threshold and the accumulator is returned unchanged, or the first index
attaining the minimum distance is returned. -/
theorem selGo_spec (d : ChunkBuffer → Int) (l : List ChunkBuffer) :
    ∀ (n : Nat) (bi : Option Nat) (bd : Int),
      (selGo d l n (bi, bd) = (bi, bd) ∧
        ∀ (j : Nat) (hj : j < l.length), bd ≤ d (l.get ⟨j, hj⟩)) ∨
      (∃ k, ∃ hk : k < l.length,
        selGo d l n (bi, bd) = (some (n + k), d (l.get ⟨k, hk⟩)) ∧
        d (l.get ⟨k, hk⟩) < bd ∧
        (∀ (j : Nat) (hj : j < l.length), d (l.get ⟨k, hk⟩) ≤ d (l.get ⟨j, hj⟩)) ∧
        (∀ (j : Nat) (hj : j < l.length), j < k →
          d (l.get ⟨j, hj⟩) > d (l.get ⟨k, hk⟩))) := by
  induction l with
  | nil =>
    intro n bi bd
    exact Or.inl ⟨rfl, fun j hj => absurd hj (Nat.not_lt_zero j)⟩
  | cons e es ih =>
    intro n bi bd
    rw [selGo]
    by_cases h : d e < bd
    · rw [if_pos h]
      rcases ih (n + 1) (some n) (d e) with ⟨heq, hall⟩ | ⟨k, hk, heq, hlt, hmin, hstrict⟩
      · refine Or.inr ⟨0, Nat.succ_pos _, ?_, h, ?_, ?_⟩
        · rw [heq, Nat.add_zero]
          rfl
        · intro j hj
          cases j with
          | zero => exact le_refl _
          | succ j => exact hall j (Nat.lt_of_succ_lt_succ hj)
        · intro j hj hj0
          exact absurd hj0 (Nat.not_lt_zero j)
      · refine Or.inr ⟨k + 1, Nat.succ_lt_succ hk, ?_, ?_, ?_, ?_⟩
        · rw [heq, show n + (k + 1) = n + 1 + k from by omega]
          rfl
        · exact lt_trans hlt h
        · intro j hj
          cases j with
          | zero => exact le_of_lt hlt
          | succ j => exact hmin j (Nat.lt_of_succ_lt_succ hj)
        · intro j hj hjk
          cases j with
          | zero => exact hlt
          | succ j => exact hstrict j (Nat.lt_of_succ_lt_succ hj) (Nat.lt_of_succ_lt_succ hjk)
    · rw [if_neg h]
      rcases ih (n + 1) bi bd with ⟨heq, hall⟩ | ⟨k, hk, heq, hlt, hmin, hstrict⟩
      · refine Or.inl ⟨heq, ?_⟩
        intro j hj
        cases j with
        | zero => exact le_of_not_lt h
        | succ j => exact hall j (Nat.lt_of_succ_lt_succ hj)
      · refine Or.inr ⟨k + 1, Nat.succ_lt_succ hk, ?_, ?_, ?_, ?_⟩
        · rw [heq, show n + (k + 1) = n + 1 + k from by omega]
          rfl
        · exact hlt
        · intro j hj
          cases j with
          | zero => exact le_of_lt (lt_of_lt_of_le hlt (le_of_not_lt h))
          | succ j => exact hmin j (Nat.lt_of_succ_lt_succ hj)
        · intro j hj hjk
          cases j with
          | zero => exact lt_of_lt_of_le hlt (le_of_not_lt h)
          | succ j => exact hstrict j (Nat.lt_of_succ_lt_succ hj) (Nat.lt_of_succ_lt_succ hjk)

/-! ## Faithfulness of the wrapped arithmetic in the overflow-free range -/

theorem wrap32_eq_self (x : Int) (h1 : -(2 ^ 31) ≤ x) (h2 : x < 2 ^ 31) :
    wrap32 x = x := by
  unfold wrap32
  rw [Int.emod_eq_of_lt (by omega) (by omega)]
  omega

theorem sq_bound_of_lt (d : Int) (h : d * d < 2 ^ 31) :
    -(2 ^ 31) ≤ d ∧ d < 2 ^ 31 := by
  constructor
  · by_contra hc
    push_neg at hc
    have h1 : (2 ^ 31 : Int) * 2 ^ 31 ≤ (-d) * (-d) := by
      have h2 : (2 ^ 31 : Int) ≤ -d := by omega
      exact mul_le_mul h2 h2 (by norm_num) (by omega)
    have h3 : (-d) * (-d) = d * d := by ring
    have h4 : (2 ^ 31 : Int) * 2 ^ 31 = 2 ^ 62 := by norm_num
    omega
  · by_contra hc
    push_neg at hc
    have h1 : (2 ^ 31 : Int) * 2 ^ 31 ≤ d * d :=
      mul_le_mul hc hc (by norm_num) (by omega)
    have h4 : (2 ^ 31 : Int) * 2 ^ 31 = 2 ^ 62 := by norm_num
    omega

/-- When the true squared distance fits below `2 ^ 31`, the `i32` fold
computes it exactly: no subtraction, square or partial sum wraps. -/
theorem machineDist_eq_sqDist (cc pp : Int × Int × Int)
    (h : sqDist cc pp < 2 ^ 31) : machineDist cc pp = sqDist cc pp := by
  have hsq : sqDist cc pp =
      (cc.1 - pp.1) * (cc.1 - pp.1) + (cc.2.1 - pp.2.1) * (cc.2.1 - pp.2.1) +
        (cc.2.2 - pp.2.2) * (cc.2.2 - pp.2.2) := by
    unfold sqDist; ring
  have n1 : 0 ≤ (cc.1 - pp.1) * (cc.1 - pp.1) := mul_self_nonneg _
  have n2 : 0 ≤ (cc.2.1 - pp.2.1) * (cc.2.1 - pp.2.1) := mul_self_nonneg _
  have n3 : 0 ≤ (cc.2.2 - pp.2.2) * (cc.2.2 - pp.2.2) := mul_self_nonneg _
  have b1 : (cc.1 - pp.1) * (cc.1 - pp.1) < 2 ^ 31 := by omega
  have b2 : (cc.2.1 - pp.2.1) * (cc.2.1 - pp.2.1) < 2 ^ 31 := by omega
  have b3 : (cc.2.2 - pp.2.2) * (cc.2.2 - pp.2.2) < 2 ^ 31 := by omega
  obtain ⟨l1, r1⟩ := sq_bound_of_lt _ b1
  obtain ⟨l2, r2⟩ := sq_bound_of_lt _ b2
  obtain ⟨l3, r3⟩ := sq_bound_of_lt _ b3
  unfold machineDist sub32 mul32 add32
  rw [wrap32_eq_self (cc.1 - pp.1) l1 r1,
    wrap32_eq_self (cc.2.1 - pp.2.1) l2 r2,
    wrap32_eq_self (cc.2.2 - pp.2.2) l3 r3,
    wrap32_eq_self _ (by omega) b1,
    wrap32_eq_self _ (by omega) b2,
    wrap32_eq_self _ (by omega) b3,
    wrap32_eq_self
      ((cc.1 - pp.1) * (cc.1 - pp.1) + (cc.2.1 - pp.2.1) * (cc.2.1 - pp.2.1))
      (by omega) (by omega),
    wrap32_eq_self _ (by omega) (by omega)]
  omega

/-! ## Lemmas on `swapRemove` -/

theorem swapRemove_length (l : List α) (i : Nat) (hl : l ≠ []) :
    (swapRemove l i).length = l.length - 1 := by
  rw [swapRemove, List.getLast?_eq_getLast l hl]
  simp

theorem swapRemove_mem (l : List α) (i : Nat) (hi : i < l.length) (x : α)
    (hx : x ∈ l) (hne : x ≠ l.get ⟨i, hi⟩) : x ∈ swapRemove l i := by
  have hl : l ≠ [] := by
    intro h
    subst h
    simp at hi
  rw [swapRemove, List.getLast?_eq_getLast l hl]
  show x ∈ (l.set i (l.getLast hl)).dropLast
  obtain ⟨j, hj, hget⟩ := List.mem_iff_getElem.mp hx
  have hij : j ≠ i := by
    intro h
    apply hne
    rw [← hget, List.get_eq_getElem]
    subst h
    rfl
  by_cases hjn : j < l.length - 1
  · apply List.mem_iff_getElem.mpr
    refine ⟨j, by simpa using hjn, ?_⟩
    rw [List.getElem_dropLast, List.getElem_set_ne (Ne.symm hij)]
    exact hget
  · have hjeq : j = l.length - 1 := by omega
    have hxa : x = l.getLast hl := by
      rw [← hget, List.getLast_eq_getElem]
      subst hjeq
      rfl
    have hin : i < l.length - 1 := by omega
    apply List.mem_iff_getElem.mpr
    refine ⟨i, by simpa using hin, ?_⟩
    rw [List.getElem_dropLast, List.getElem_set_self]
    exact hxa.symm

/-! ## Characterization of a successful pop -/

theorem popNearest_eq_some (pp : Int × Int × Int) (q : List ChunkBuffer)
    (e : ChunkBuffer) (q' : List ChunkBuffer)
    (h : popNearest pp q = (some e, q')) :
    ∃ i, ∃ hi : i < q.length,
      selectClosest pp q = some i ∧ e = q.get ⟨i, hi⟩ ∧ q' = swapRemove q i := by
  rcases q with _ | ⟨e0, es⟩
  · have hempty : popNearest pp [] = (none, []) := rfl
    rw [hempty] at h
    simp at h
  · unfold popNearest at h
    rcases hsel : selectClosest pp (e0 :: es) with _ | i
    · rw [hsel] at h
      simp at h
    · rw [hsel] at h
      simp only [List.length_cons] at h
      rcases hget : (e0 :: es).get? i with _ | e'
      · rw [hget] at h
        simp at h
      · rw [hget] at h
        obtain ⟨hi, hval⟩ := List.get?_eq_some.mp hget
        simp only [Prod.mk.injEq, Option.some.injEq] at h
        exact ⟨i, hi, rfl, by rw [← h.1, ← hval], h.2.symm⟩

theorem popNearest_fst (pp : Int × Int × Int) (q : List ChunkBuffer) (i : Nat)
    (hi : i < q.length) (hsel : selectClosest pp q = some i) :
    popNearest pp q = (some (q.get ⟨i, hi⟩), swapRemove q i) := by
  rcases q with _ | ⟨e0, es⟩
  · simp at hi
  · unfold popNearest
    rw [hsel]
    have hget : (e0 :: es).get? i = some ((e0 :: es).get ⟨i, hi⟩) :=
      List.get?_eq_some.mpr ⟨hi, rfl⟩
    dsimp only [List.length_cons]
    rw [hget]

/-- Shared core: on a nonempty queue all of whose true squared distances to
`pp` stay strictly below `i32::MAX`, the pop returns the entry at the first
index attaining the minimum distance and swap-removes it. -/
theorem popNearest_min_core (pp : Int × Int × Int) (q : List ChunkBuffer)
    (hq : q ≠ []) (hd : ∀ e ∈ q, sqDist e.coords pp < 2 ^ 31 - 1) :
    ∃ k, ∃ hk : k < q.length,
      popNearest pp q = (some (q.get ⟨k, hk⟩), swapRemove q k) ∧
      (∀ j (hj : j < q.length),
        sqDist (q.get ⟨k, hk⟩).coords pp ≤ sqDist (q.get ⟨j, hj⟩).coords pp) ∧
      (∀ j (hj : j < q.length), j < k →
        sqDist (q.get ⟨k, hk⟩).coords pp < sqDist (q.get ⟨j, hj⟩).coords pp) := by
  have hmd : ∀ e ∈ q, machineDist e.coords pp = sqDist e.coords pp := fun e he =>
    machineDist_eq_sqDist e.coords pp (by have := hd e he; omega)
  rcases selGo_spec (fun e => machineDist e.coords pp) q 0 none (2 ^ 31 - 1) with
    ⟨_, hall⟩ | ⟨k, hk, heq, _, hmin, hstrict⟩
  · rcases q with _ | ⟨e0, es⟩
    · exact absurd rfl hq
    · have h0 : (0 : Nat) < (e0 :: es).length := Nat.succ_pos _
      have hmem : (e0 :: es).get ⟨0, h0⟩ ∈ e0 :: es := List.get_mem _ _ _
      have h1 := hall 0 h0
      rw [hmd _ hmem] at h1
      have h2 := hd _ hmem
      omega
  · have hsel : selectClosest pp q = some k := by
      rw [selectClosest_eq_selGo, heq]
      simp
    refine ⟨k, hk, popNearest_fst pp q k hk hsel, ?_, ?_⟩
    · intro j hj
      have h1 := hmin j hj
      rw [hmd _ (List.get_mem _ _ _), hmd _ (List.get_mem _ _ _)] at h1
      exact h1
    · intro j hj hjk
      have h1 := hstrict j hj hjk
      rw [hmd _ (List.get_mem _ _ _), hmd _ (List.get_mem _ _ _)] at h1
      exact h1

/-- The saturating cast is the identity on the `i32` range. -/
theorem i32sat_eq_self (x : Int) (h1 : -(2 ^ 31) ≤ x) (h2 : x < 2 ^ 31) :
    i32sat x = x := by
  unfold i32sat
  rw [if_neg (by omega), if_neg (by omega)]

/-- Concrete evaluation of the player chunk coordinate at the origin. -/
theorem playerChunk_zero : playerChunk (0, 0, 0) = (0, 0, 0) := by
  unfold playerChunk chunkCoordQ floorChunk i32sat
  norm_num

/-- Concrete evaluation of the unclamped chunk coordinate at the origin. -/
theorem floorChunkCoord_zero : floorChunkCoord (0, 0, 0) = (0, 0, 0) := by
  unfold floorChunkCoord floorChunk
  norm_num

/-! ## Claim theorems for the pending work queue -/

/-- C8: pop-nearest invoked on an empty pending queue returns nothing and
leaves the queue unchanged, for every player position. -/
theorem pop_nearest_empty_queue (p : Rat × Rat × Rat) :
    popNearest (playerChunk p) ([] : List ChunkBuffer) = (none, []) := rfl

/-- C9: whenever pop-nearest removes and returns an element, the queue
length decreases by exactly one and every other element previously in the
queue is still present afterwards. -/
theorem pop_nearest_removes_exactly_one (pp : Int × Int × Int)
    (q q' : List ChunkBuffer) (e : ChunkBuffer)
    (h : popNearest pp q = (some e, q')) :
    q'.length + 1 = q.length ∧ ∀ x ∈ q, x ≠ e → x ∈ q' := by
  obtain ⟨i, hi, _, hei, hq'⟩ := popNearest_eq_some pp q e q' h
  have hl : q ≠ [] := by
    intro hnil
    subst hnil
    simp at hi
  constructor
  · rw [hq', swapRemove_length q i hl]
    omega
  · intro x hx hne
    rw [hq']
    exact swapRemove_mem q i hi x hx (by rw [← hei]; exact hne)

/-- Witness for C9 at a concrete queue: popping returns the nearer entry and
leaves the other one. -/
theorem pop_nearest_removes_exactly_one_witness :
    ([mkEntry (5, 0, 0)].length + 1 =
        [mkEntry (5, 0, 0), mkEntry (1, 0, 0)].length) ∧
      ∀ x ∈ [mkEntry (5, 0, 0), mkEntry (1, 0, 0)],
        x ≠ mkEntry (1, 0, 0) → x ∈ [mkEntry (5, 0, 0)] :=
  pop_nearest_removes_exactly_one (0, 0, 0)
    [mkEntry (5, 0, 0), mkEntry (1, 0, 0)] [mkEntry (5, 0, 0)]
    (mkEntry (1, 0, 0)) rfl

/-- C2 as stated is false on the code: with the player at the origin, a
queue holding an entry at `x = 46341` (true squared distance `46341 ^ 2`,
which wraps to a negative `i32`) ahead of an entry at `x = 1` makes the scan
return the far entry even though the near entry is strictly closer. -/
theorem pop_nearest_overflow_counterexample :
    (popNearest (playerChunk (0, 0, 0))
        [mkEntry (46341, 0, 0), mkEntry (1, 0, 0)]).1 =
      some (mkEntry (46341, 0, 0)) ∧
    mkEntry (1, 0, 0) ∈ [mkEntry (46341, 0, 0), mkEntry (1, 0, 0)] ∧
    sqDist (mkEntry (1, 0, 0)).coords (playerChunk (0, 0, 0)) <
      sqDist (mkEntry (46341, 0, 0)).coords (playerChunk (0, 0, 0)) := by
  refine ⟨?_, List.mem_cons_of_mem _ (List.mem_cons_self _ _), ?_⟩
  · rw [playerChunk_zero]
    rfl
  · rw [playerChunk_zero]
    decide

/-- C2 (amended): for every non-empty pending queue and every player
position whose chunk coordinate (the floor of the world position divided by
16, per axis) fits in the `i32` range, so the saturating cast is exact, and
such that each entry's squared Euclidean distance to that chunk coordinate
stays strictly below `i32::MAX`, so no distance computation overflows,
pop-nearest returns the entry minimizing that distance, and among several
minimizers the one with the lowest original index. -/
theorem pop_nearest_returns_first_min (p : Rat × Rat × Rat)
    (q : List ChunkBuffer) (hq : q ≠ [])
    (hr : -(2 ^ 31) ≤ floorChunk p.1 ∧ floorChunk p.1 < 2 ^ 31 ∧
      -(2 ^ 31) ≤ floorChunk p.2.1 ∧ floorChunk p.2.1 < 2 ^ 31 ∧
      -(2 ^ 31) ≤ floorChunk p.2.2 ∧ floorChunk p.2.2 < 2 ^ 31)
    (hd : ∀ e ∈ q, sqDist e.coords (floorChunkCoord p) < 2 ^ 31 - 1) :
    ∃ k, ∃ hk : k < q.length,
      (popNearest (playerChunk p) q).1 = some (q.get ⟨k, hk⟩) ∧
      (∀ j (hj : j < q.length),
        sqDist (q.get ⟨k, hk⟩).coords (floorChunkCoord p) ≤
          sqDist (q.get ⟨j, hj⟩).coords (floorChunkCoord p)) ∧
      (∀ j (hj : j < q.length), j < k →
        sqDist (q.get ⟨k, hk⟩).coords (floorChunkCoord p) <
          sqDist (q.get ⟨j, hj⟩).coords (floorChunkCoord p)) := by
  obtain ⟨h1, h2, h3, h4, h5, h6⟩ := hr
  have hpc : playerChunk p = floorChunkCoord p := by
    show (i32sat (floorChunk p.1), i32sat (floorChunk p.2.1),
        i32sat (floorChunk p.2.2)) =
      (floorChunk p.1, floorChunk p.2.1, floorChunk p.2.2)
    rw [i32sat_eq_self _ h1 h2, i32sat_eq_self _ h3 h4, i32sat_eq_self _ h5 h6]
  rw [hpc]
  obtain ⟨k, hk, heq, hmin, hstrict⟩ :=
    popNearest_min_core (floorChunkCoord p) q hq hd
  exact ⟨k, hk, by rw [heq], hmin, hstrict⟩

/-- Witness for the amended C2 at a concrete queue and position. -/
theorem pop_nearest_returns_first_min_witness :
    ([mkEntry (5, 0, 0), mkEntry (1, 0, 0)] ≠ ([] : List ChunkBuffer)) ∧
    (-(2 ^ 31) ≤ floorChunk (0 : Rat) ∧ floorChunk (0 : Rat) < 2 ^ 31 ∧
      -(2 ^ 31) ≤ floorChunk (0 : Rat) ∧ floorChunk (0 : Rat) < 2 ^ 31 ∧
      -(2 ^ 31) ≤ floorChunk (0 : Rat) ∧ floorChunk (0 : Rat) < 2 ^ 31) ∧
    (∀ e ∈ [mkEntry (5, 0, 0), mkEntry (1, 0, 0)],
      sqDist e.coords (floorChunkCoord (0, 0, 0)) < 2 ^ 31 - 1) ∧
    ∃ k, ∃ hk : k < [mkEntry (5, 0, 0), mkEntry (1, 0, 0)].length,
      (popNearest (playerChunk (0, 0, 0))
          [mkEntry (5, 0, 0), mkEntry (1, 0, 0)]).1 =
        some ([mkEntry (5, 0, 0), mkEntry (1, 0, 0)].get ⟨k, hk⟩) ∧
      (∀ j (hj : j < [mkEntry (5, 0, 0), mkEntry (1, 0, 0)].length),
        sqDist ([mkEntry (5, 0, 0), mkEntry (1, 0, 0)].get ⟨k, hk⟩).coords
            (floorChunkCoord (0, 0, 0)) ≤
          sqDist ([mkEntry (5, 0, 0), mkEntry (1, 0, 0)].get ⟨j, hj⟩).coords
            (floorChunkCoord (0, 0, 0))) ∧
      (∀ j (hj : j < [mkEntry (5, 0, 0), mkEntry (1, 0, 0)].length), j < k →
        sqDist ([mkEntry (5, 0, 0), mkEntry (1, 0, 0)].get ⟨k, hk⟩).coords
            (floorChunkCoord (0, 0, 0)) <
          sqDist ([mkEntry (5, 0, 0), mkEntry (1, 0, 0)].get ⟨j, hj⟩).coords
            (floorChunkCoord (0, 0, 0))) :=
  ⟨by simp, by norm_num [floorChunk],
    by rw [floorChunkCoord_zero]; decide,
    pop_nearest_returns_first_min (0, 0, 0)
      [mkEntry (5, 0, 0), mkEntry (1, 0, 0)] (by simp)
      (by norm_num [floorChunk])
      (by rw [floorChunkCoord_zero]; decide)⟩

/-- C10: on a non-empty queue whose squared distances all stay strictly
below `i32::MAX` with no overflow, pop-nearest returns some element. -/
theorem pop_nearest_some_of_nonempty (p : Rat × Rat × Rat)
    (q : List ChunkBuffer) (hq : q ≠ [])
    (hd : ∀ e ∈ q, sqDist e.coords (playerChunk p) < 2 ^ 31 - 1) :
    (popNearest (playerChunk p) q).1.isSome := by
  obtain ⟨k, hk, heq, _, _⟩ := popNearest_min_core (playerChunk p) q hq hd
  rw [heq]
  rfl

/-- Witness for C10 at a one-entry queue. -/
theorem pop_nearest_some_of_nonempty_witness :
    ([mkEntry (1, 2, 3)] ≠ ([] : List ChunkBuffer)) ∧
    (∀ e ∈ [mkEntry (1, 2, 3)],
      sqDist e.coords (playerChunk (0, 0, 0)) < 2 ^ 31 - 1) ∧
    (popNearest (playerChunk (0, 0, 0)) [mkEntry (1, 2, 3)]).1.isSome :=
  ⟨by simp, by rw [playerChunk_zero]; decide,
    pop_nearest_some_of_nonempty (0, 0, 0) [mkEntry (1, 2, 3)]
      (by simp) (by rw [playerChunk_zero]; decide)⟩

/-! ## Claim theorems for the neighborhood stitcher -/

/-- C4: in the stitched neighborhood of slice `y` of column `(x, z)`, an
absent neighbor column resolves every one of its vertical references to the
empty-chunk constant; a present column with `y + dy` outside its slice range
likewise resolves to the empty-chunk constant; and when the neighbor column
at `(x+1, z)` is loaded with `y` in its range, the `+x` slot at the same
level holds that column's actual chunk data. -/
theorem stitch_neighborhood (m : Index) (x z : Int) (y : Nat)
    (hy : y < 2 ^ 31 - 1) :
    (∀ zi xi : Fin 3,
      lookupColumn m (x + ((xi : Int) - 1), z + ((zi : Int) - 1)) = none →
        ∀ yi : Fin 3, stitchChunks m x z y yi zi xi = EMPTY_CHUNK) ∧
    (∀ (zi xi : Fin 3) (c : ChunkColumn),
      lookupColumn m (x + ((xi : Int) - 1), z + ((zi : Int) - 1)) = some c →
        c.chunks.length < 2 ^ 63 →
        ∀ yi : Fin 3,
          ((y : Int) + ((yi : Int) - 1) < 0 ∨
            (c.chunks.length : Int) ≤ (y : Int) + ((yi : Int) - 1)) →
          stitchChunks m x z y yi zi xi = EMPTY_CHUNK) ∧
    (∀ c : ChunkColumn, lookupColumn m (x + 1, z) = some c →
      ∀ hyc : y < c.chunks.length,
        stitchChunks m x z y 1 1 2 = c.chunks.get ⟨y, hyc⟩) := by
  have hw : wrap32 (y : Int) = (y : Int) := wrap32_eq_self _ (by omega) (by omega)
  refine ⟨?_, ?_, ?_⟩
  · intro zi xi h yi
    unfold stitchChunks
    rw [h]
    rfl
  · intro zi xi c hc hlen yi hout
    have h3 := yi.isLt
    unfold stitchChunks
    rw [hc]
    have hj : add32 (wrap32 (y : Int)) ((yi : Int) - 1) =
        (y : Int) + ((yi : Int) - 1) := by
      rw [hw]
      unfold add32
      exact wrap32_eq_self _ (by omega) (by omega)
    rw [hj]
    unfold resolveChunk
    dsimp only
    rcases hout with hneg | hge
    · have hj1 : (y : Int) + ((yi : Int) - 1) = -1 := by omega
      rw [hj1, show usizeCast (-1) = 2 ^ 64 - 1 by decide,
        List.get?_eq_none.mpr (by omega)]
    · have h0 : 0 ≤ (y : Int) + ((yi : Int) - 1) := by omega
      have hcast : usizeCast ((y : Int) + ((yi : Int) - 1)) =
          ((y : Int) + ((yi : Int) - 1)).toNat := by
        unfold usizeCast
        rw [Int.emod_eq_of_lt h0 (by omega)]
      rw [hcast, List.get?_eq_none.mpr (by omega)]
  · intro c hc hyc
    have hkey : (x + (((2 : Fin 3) : Int) - 1), z + (((1 : Fin 3) : Int) - 1)) =
        (x + 1, z) := by norm_num
    unfold stitchChunks
    rw [hkey, hc]
    have hj : add32 (wrap32 (y : Int)) (((1 : Fin 3) : Int) - 1) = (y : Int) := by
      rw [hw]
      unfold add32
      rw [show (((1 : Fin 3) : Int) - 1) = 0 from rfl, add_zero]
      exact wrap32_eq_self _ (by omega) (by omega)
    rw [hj]
    unfold resolveChunk
    dsimp only
    have hcast : usizeCast (y : Int) = y := by
      unfold usizeCast
      rw [Int.emod_eq_of_lt (by omega) (by omega)]
      exact Int.toNat_natCast y
    rw [hcast, List.get?_eq_some.mpr ⟨hyc, rfl⟩]

/-- Witness for C4 over two adjacent one-slice columns: a missing neighbor
and an out-of-range vertical index yield the sentinel, while the loaded
`+x` neighbor yields its real slice. -/
theorem stitch_neighborhood_witness :
    ((0 : Nat) < 2 ^ 31 - 1) ∧
    lookupColumn sampleIndex
        ((0 : Int) + (((0 : Fin 3) : Int) - 1),
          (0 : Int) + (((0 : Fin 3) : Int) - 1)) = none ∧
    stitchChunks sampleIndex 0 0 0 1 0 0 = EMPTY_CHUNK ∧
    lookupColumn sampleIndex
        ((0 : Int) + (((2 : Fin 3) : Int) - 1),
          (0 : Int) + (((1 : Fin 3) : Int) - 1)) = some sampleColumn ∧
    stitchChunks sampleIndex 0 0 0 0 1 2 = EMPTY_CHUNK ∧
    lookupColumn sampleIndex ((0 : Int) + 1, 0) = some sampleColumn ∧
    stitchChunks sampleIndex 0 0 0 1 1 2 =
      sampleColumn.chunks.get ⟨0, by decide⟩ := by
  obtain ⟨ha, hb, hc⟩ := stitch_neighborhood sampleIndex 0 0 0 (by decide)
  exact ⟨by decide, rfl, ha 0 0 rfl 1, rfl,
    hb 1 2 sampleColumn rfl (by decide) 0 (Or.inl (by decide)),
    rfl, hc sampleColumn rfl (by decide)⟩

/-! ## Claim theorems for the load window -/

theorem cBase_bounds (t : Int) : cBase t ≤ 23 ∧ (t % 32 ≤ 24 → cBase t ≤ 16) := by
  unfold cBase
  have h1 : 0 ≤ t % 32 := Int.emod_nonneg t (by norm_num)
  have h2 : t % 32 < 32 := Int.emod_lt_of_pos t (by norm_num)
  omega

/-- C3 as stated is false on the code: with the player at world position
(496, 64, 496) (column 31 of the region on both axes), the load window loop
calls the region with local coordinates above 31. -/
theorem load_window_exceeds_region_counterexample :
    ∃ cc ∈ regionCallsOf (chunkCoordQ 496) (chunkCoordQ 496), 31 < cc.1 := by
  rw [show chunkCoordQ 496 = 31 by norm_num [chunkCoordQ, floorChunk, i32sat]]
  exact ⟨(38, 38), by decide, by decide⟩

/-- C3 (amended): for every player position, every local coordinate pair
that `load_chunks` passes to `region.get_chunk_column` lies within `0..38`,
and within `0..31` on an axis whenever the player column coordinate masked
into the region (`x & 31`) is at most 24 on that axis. -/
theorem load_window_call_bounds (px pz : Rat) :
    ∀ cc ∈ regionCallsOf (chunkCoordQ px) (chunkCoordQ pz),
      cc.1 ≤ 38 ∧ cc.2 ≤ 38 ∧
        (chunkCoordQ px % 32 ≤ 24 → cc.1 ≤ 31) ∧
        (chunkCoordQ pz % 32 ≤ 24 → cc.2 ≤ 31) := by
  intro cc hcc
  unfold regionCallsOf at hcc
  simp only [List.mem_flatMap, List.mem_map, List.mem_range] at hcc
  obtain ⟨dz, hdz, dx, hdx, rfl⟩ := hcc
  obtain ⟨hx1, hx2⟩ := cBase_bounds (chunkCoordQ px)
  obtain ⟨hz1, hz2⟩ := cBase_bounds (chunkCoordQ pz)
  refine ⟨by omega, by omega, ?_, ?_⟩
  · intro h
    have := hx2 h
    omega
  · intro h
    have := hz2 h
    omega

/-- Witness for the amended C3 at the origin: the first window call is
`(0, 0)`, within bounds. -/
theorem load_window_call_bounds_witness :
    ((0, 0) ∈ regionCallsOf (chunkCoordQ 0) (chunkCoordQ 0)) ∧
    (((0, 0) : Nat × Nat).1 ≤ 38 ∧ ((0, 0) : Nat × Nat).2 ≤ 38 ∧
      (chunkCoordQ 0 % 32 ≤ 24 → ((0, 0) : Nat × Nat).1 ≤ 31) ∧
      (chunkCoordQ 0 % 32 ≤ 24 → ((0, 0) : Nat × Nat).2 ≤ 31)) := by
  have hmem : (0, 0) ∈ regionCallsOf (chunkCoordQ 0) (chunkCoordQ 0) := by
    rw [show chunkCoordQ 0 = 0 by norm_num [chunkCoordQ, floorChunk, i32sat]]
    decide
  exact ⟨hmem, load_window_call_bounds 0 0 (0, 0) hmem⟩

/-! ## Claim theorems for the spatial index invariant -/

theorem addChunkColumn_wf (m : Index) (x z : Int) (c : ChunkColumn)
    (hm : indexWF m) (hc : columnWF c) : indexWF (addChunkColumn m x z c) := by
  obtain ⟨hall, hnodup⟩ := hm
  constructor
  · intro p hp
    rcases List.mem_cons.mp hp with rfl | hp'
    · exact hc
    · exact hall p (List.mem_of_mem_filter hp')
  · unfold indexKeys addChunkColumn
    rw [List.map_cons, List.nodup_cons]
    constructor
    · intro hmem
      obtain ⟨p, hpmem, hpeq⟩ := List.mem_map.mp hmem
      have hne := List.of_mem_filter hpmem
      simp only [decide_eq_true_eq] at hne
      exact hne hpeq
    · exact hnodup.sublist (List.Sublist.map _ (List.filter_sublist m))

theorem foldl_preserves_wf (f : Index → Nat × Nat → Index)
    (hf : ∀ m cc, indexWF m → indexWF (f m cc)) :
    ∀ (calls : List (Nat × Nat)) (m : Index), indexWF m →
      indexWF (calls.foldl f m) := by
  intro calls
  induction calls with
  | nil => intro m hm; exact hm
  | cons cc rest ih =>
    intro m hm
    rw [List.foldl_cons]
    exact ih _ (hf m cc hm)

set_option maxRecDepth 10000 in
theorem loadChunksAt_wf (region : Nat → Nat → Option ChunkColumn)
    (hreg : RegionWellFormed region) (pcx pcz : Int) (st : AppState)
    (hst : indexWF st.index) : indexWF (loadChunksAt region pcx pcz st).index := by
  unfold loadChunksAt
  dsimp only
  refine foldl_preserves_wf _ ?_ (regionCallsOf pcx pcz) st.index hst
  intro m cc hm
  rcases hcc : region cc.1 cc.2 with _ | col
  · exact hm
  · exact addChunkColumn_wf m _ _ col hm (hreg cc.1 cc.2 col hcc)

/-- C5: insertion keeps the index invariant: after every
`add_chunk_column` of a well-formed column the slice count of every loaded
column still equals its mesh-slot count and no key is bound twice; and a
whole `load_chunks` pass over a well-formed region preserves the same
invariant. -/
theorem index_invariant_preserved :
    (∀ (m : Index) (x z : Int) (c : ChunkColumn),
      indexWF m → columnWF c → indexWF (addChunkColumn m x z c)) ∧
    (∀ (region : Nat → Nat → Option ChunkColumn) (px pz : Rat) (st : AppState),
      RegionWellFormed region → indexWF st.index →
        indexWF (loadChunks region px pz st).index) :=
  ⟨fun m x z c hm hc => addChunkColumn_wf m x z c hm hc,
    fun region px pz st hreg hst =>
      loadChunksAt_wf region hreg (chunkCoordQ px) (chunkCoordQ pz) st hst⟩

/-- Witness for C5: the empty index, a sixteen-slice column and the
all-present well-formed region satisfy the hypotheses, and both insertions
preserve the invariant. -/
theorem index_invariant_preserved_witness :
    (indexWF ([] : Index) ∧ columnWF fullColumn ∧ RegionWellFormed fullRegion) ∧
    indexWF (addChunkColumn [] 0 0 fullColumn) ∧
    indexWF (loadChunks fullRegion 8 8 ⟨[], []⟩).index := by
  have h1 : indexWF ([] : Index) :=
    ⟨fun p hp => absurd hp (List.not_mem_nil p), List.nodup_nil⟩
  have h2 : columnWF fullColumn := by
    unfold columnWF
    rfl
  have h3 : RegionWellFormed fullRegion := by
    intro a b c h
    unfold fullRegion at h
    injection h with h4
    rw [← h4]
    exact h2
  exact ⟨⟨h1, h2, h3⟩,
    index_invariant_preserved.1 [] 0 0 fullColumn h1 h2,
    index_invariant_preserved.2 fullRegion 8 8 ⟨[], []⟩ h3 h1⟩

/-! ## Claim theorem for the load scheduler start-up pass -/

set_option maxRecDepth 40000 in
/-- C1: evaluation of the code at the claimed scenario. Starting from an
empty index, player at world position (8, 64, 8), every column of the
window present with one vertical slice each, `load_chunks` returns with the
256 columns inserted but with an empty pending queue: the source pushes the
mesh requests (from the still-empty index) before inserting the columns, so
not `16*16*num_vertical_slices = 256` requests but zero exist on return. -/
theorem load_chunks_enqueues_nothing_from_empty :
    (loadChunks sampleRegion 8 8 ⟨[], []⟩).pending = [] ∧
    (loadChunks sampleRegion 8 8 ⟨[], []⟩).index.length = 256 ∧
    ∀ p ∈ (loadChunks sampleRegion 8 8 ⟨[], []⟩).index,
      p.2.chunks.length = 1 := by
  have hL : loadChunks sampleRegion 8 8 ⟨[], []⟩ =
      loadChunksAt sampleRegion 0 0 ⟨[], []⟩ := by
    unfold loadChunks
    rw [show chunkCoordQ 8 = 0 by norm_num [chunkCoordQ, floorChunk, i32sat]]
  rw [hL]
  refine ⟨rfl, by decide, by decide⟩

/-! ## Claim theorems for the frame culler and render order -/

theorem rsign_eq_iff (a b : Rat) : rsign a = rsign b ↔ (0 ≤ a ↔ 0 ≤ b) := by
  unfold rsign
  split_ifs with ha hb <;> norm_num <;> tauto

theorem bbMin_box0_x : bbMin viewB projB (0, 0, 0) 0 = -1 := by
  unfold bbMin cornerDeltas minOver ndcCorner colMat4Transform cornerWorld viewB projB mkMat mkCol
  norm_num [min_def]

theorem bbMax_box0_x : bbMax viewB projB (0, 0, 0) 0 = 1 := by
  unfold bbMax cornerDeltas maxOver ndcCorner colMat4Transform cornerWorld viewB projB mkMat mkCol
  norm_num [max_def]

theorem bbMin_box0_y : bbMin viewB projB (0, 0, 0) 1 = -1 := by
  unfold bbMin cornerDeltas minOver ndcCorner colMat4Transform cornerWorld viewB projB mkMat mkCol
  norm_num [min_def]

theorem bbMax_box0_y : bbMax viewB projB (0, 0, 0) 1 = 1 := by
  unfold bbMax cornerDeltas maxOver ndcCorner colMat4Transform cornerWorld viewB projB mkMat mkCol
  norm_num [max_def]

theorem bbMin_box0_z : bbMin viewB projB (0, 0, 0) 2 = 76 / 99 := by
  unfold bbMin cornerDeltas minOver ndcCorner colMat4Transform cornerWorld viewB projB mkMat mkCol
  norm_num [min_def]

theorem bbMax_box0_z : bbMax viewB projB (0, 0, 0) 2 = 14 / 11 := by
  unfold bbMax cornerDeltas maxOver ndcCorner colMat4Transform cornerWorld viewB projB mkMat mkCol
  norm_num [max_def]

theorem bbMin_box1_z : bbMin viewB projB (0, 0, 1) 2 = 328 / 297 := by
  unfold bbMin cornerDeltas minOver ndcCorner colMat4Transform cornerWorld viewB projB mkMat mkCol
  norm_num [min_def]

theorem bbMax_box1_z : bbMax viewB projB (0, 0, 1) 2 = 14 / 11 := by
  unfold bbMax cornerDeltas maxOver ndcCorner colMat4Transform cornerWorld viewB projB mkMat mkCol
  norm_num [max_def]

/-- C6: a slice is culled exactly when, on some clip-space axis, the
perspective-divided bounding-box minimum and maximum share a sign and both
have absolute value at least one; concretely, the box one chunk behind the
camera of `viewB` is culled and the box straddling the camera position is
not. -/
theorem frame_culler_correct :
    (∀ (view proj : Mat4) (cc : Int × Int × Int),
      culled view proj cc ↔
        ∃ i : Fin 3,
          ((0 ≤ bbMin view proj cc i ↔ 0 ≤ bbMax view proj cc i) ∧
            1 ≤ |bbMin view proj cc i| ∧ 1 ≤ |bbMax view proj cc i|)) ∧
    culled viewB projB (0, 0, 1) ∧
    ¬ culled viewB projB (0, 0, 0) := by
  refine ⟨?_, ?_, ?_⟩
  · intro view proj cc
    unfold culled cullBit
    apply exists_congr
    intro i
    rw [rsign_eq_iff, le_min_iff]
  · refine ⟨2, ?_⟩
    unfold cullBit rsign
    rw [bbMin_box1_z, bbMax_box1_z,
      abs_of_pos (by norm_num), abs_of_pos (by norm_num)]
    norm_num [min_def]
  · intro hc
    obtain ⟨i, hb1, hb2⟩ := hc
    rcases i with ⟨iv, hv⟩
    rcases iv with _ | _ | _ | n
    · rw [show (⟨0, hv⟩ : Fin 3) = 0 from rfl] at hb1
      rw [bbMin_box0_x, bbMax_box0_x] at hb1
      unfold rsign at hb1
      norm_num at hb1
    · rw [show (⟨1, hv⟩ : Fin 3) = 1 from rfl] at hb1
      rw [bbMin_box0_y, bbMax_box0_y] at hb1
      unfold rsign at hb1
      norm_num at hb1
    · rw [show (⟨2, hv⟩ : Fin 3) = 2 from rfl] at hb2
      rw [bbMin_box0_z, bbMax_box0_z] at hb2
      rw [abs_of_pos (by norm_num), abs_of_pos (by norm_num)] at hb2
      norm_num [min_def] at hb2
    · omega

theorem renderStep_no_buffer (view proj : Mat4) (acc : RenderAcc) (s : Slice)
    (hb : s.buffer = none) : renderStep view proj acc s = acc := by
  unfold renderStep
  rw [hb]

theorem renderStep_culled (view proj : Mat4) (acc : RenderAcc) (s : Slice)
    (b : Nat) (hb : s.buffer = some b) (hcul : culled view proj s.coords) :
    renderStep view proj acc s = { acc with numTotal := acc.numTotal + 1 } := by
  unfold renderStep
  rw [hb]
  dsimp only
  rw [if_pos hcul]

theorem renderStep_live (view proj : Mat4) (acc : RenderAcc) (s : Slice)
    (b : Nat) (hb : s.buffer = some b) (hcul : ¬ culled view proj s.coords) :
    renderStep view proj acc s =
      { submitted := acc.submitted ++ [b]
        numChunks := acc.numChunks + 1
        numSorted :=
          acc.numSorted + (if straddles view proj s.coords then 1 else 0)
        numTotal := acc.numTotal + 1 } := by
  unfold renderStep
  rw [hb]
  dsimp only
  rw [if_neg hcul]

theorem submitPick_no_buffer (view proj : Mat4) (s : Slice)
    (hb : s.buffer = none) : submitPick view proj s = none := by
  unfold submitPick
  rw [hb]

theorem submitPick_culled (view proj : Mat4) (s : Slice) (b : Nat)
    (hb : s.buffer = some b) (hcul : culled view proj s.coords) :
    submitPick view proj s = none := by
  unfold submitPick
  rw [hb]
  dsimp only
  rw [if_pos hcul]

theorem submitPick_live (view proj : Mat4) (s : Slice) (b : Nat)
    (hb : s.buffer = some b) (hcul : ¬ culled view proj s.coords) :
    submitPick view proj s = some b := by
  unfold submitPick
  rw [hb]
  dsimp only
  rw [if_neg hcul]

theorem needsSort_eval (view proj : Mat4) (s : Slice) :
    needsSort view proj s =
      (s.buffer.isSome && !decide (culled view proj s.coords) &&
        decide (straddles view proj s.coords)) := rfl

theorem renderPass_go (view proj : Mat4) (l : List Slice) :
    ∀ acc : RenderAcc,
      (l.foldl (renderStep view proj) acc).submitted =
        acc.submitted ++ l.filterMap (submitPick view proj) ∧
      (l.foldl (renderStep view proj) acc).numSorted =
        acc.numSorted + l.countP (needsSort view proj) := by
  induction l with
  | nil => intro acc; simp
  | cons s rest ih =>
    intro acc
    rw [List.foldl_cons]
    obtain ⟨ih1, ih2⟩ := ih (renderStep view proj acc s)
    rw [ih1, ih2, List.filterMap_cons, List.countP_cons, needsSort_eval]
    rcases hb : s.buffer with _ | b
    · rw [renderStep_no_buffer view proj acc s hb,
        submitPick_no_buffer view proj s hb]
      simp
    · by_cases hcul : culled view proj s.coords
      · rw [renderStep_culled view proj acc s b hb hcul,
          submitPick_culled view proj s b hb hcul]
        simp [hcul]
      · rw [renderStep_live view proj acc s b hb hcul,
          submitPick_live view proj s b hb hcul]
        by_cases hstr : straddles view proj s.coords
        · simp [hcul, hstr]
          omega
        · simp [hcul, hstr]

/-- C7: over any index contents, the per-frame pass submits exactly the
surviving slices, in iteration order (an order-preserving filter of the
walked slices), and its needs-sort tally counts exactly the surviving
slices whose projected X or Y range straddles zero; the tally does not
influence the submitted sequence. -/
theorem render_submits_in_order (view proj : Mat4) (m : Index) :
    (renderPass view proj (eachChunk m)).submitted =
      (eachChunk m).filterMap (submitPick view proj) ∧
    (renderPass view proj (eachChunk m)).numSorted =
      (eachChunk m).countP (needsSort view proj) := by
  obtain ⟨h1, h2⟩ := renderPass_go view proj (eachChunk m) ⟨[], 0, 0, 0⟩
  exact ⟨by simpa using h1, by simpa using h2⟩

end Hematite
